import Mathlib

/-!
Verification development for the MINIX V3 filesystem reader (`minls` /
`minget`).  The C sources (`minix_fs.c`, `minget.c`, `minls.c`,
`minix_fs.h`) are shallowly embedded: the disk image is a total byte
function, positioned reads decode little-endian integers from it, and the
stateful walkers become structural recursions with explicit accumulators.
I/O failure of `fread`/`fseek` is outside the pure model except where a
claim mentions it (`fs_read_super` takes an explicit `readOk` flag that
mirrors the early `perror` returns).
-/

/-- A raw disk image: byte address to byte value.  Every consulted byte is
reduced mod 256, since `fread` yields octets. -/
def Disk : Type := Nat → Nat

/-- Little-endian 16-bit load, as used for the packed `uint16_t`/`int16_t`
fields of the on-disk records. -/
def read16 (d : Disk) (a : Nat) : Nat :=
  d a % 256 + 256 * (d (a + 1) % 256)

/-- Little-endian 32-bit load, as used for the packed `uint32_t` fields. -/
def read32 (d : Disk) (a : Nat) : Nat :=
  d a % 256 + 256 * (d (a + 1) % 256) + 65536 * (d (a + 2) % 256)
    + 16777216 * (d (a + 3) % 256)

/-- Two's-complement reading of a 16-bit value (C `int16_t`). -/
def toSigned16 (v : Nat) : Int :=
  if v % 65536 < 32768 then (v % 65536 : Int) else (v % 65536 : Int) - 65536

/-- Two's-complement reading of a 32-bit value (C `int32_t`). -/
def toSigned32 (v : Nat) : Int :=
  if v % 4294967296 < 2147483648 then (v % 4294967296 : Int)
  else (v % 4294967296 : Int) - 4294967296

/-- `struct superblock` of `minix_fs.h` (packed, 31 bytes), with the three
padding fields dropped. -/
structure Superblock where
  ninodes : Nat
  i_blocks : Int
  z_blocks : Int
  firstdata : Nat
  log_zone_size : Int
  max_file : Nat
  zones : Nat
  magic : Int
  blocksize : Nat
  subversion : Nat
deriving DecidableEq

/-- Decode a `struct superblock` from the 31 packed bytes at address `a`
(field offsets 0,6,8,10,12,16,20,24,28,30 as in `minix_fs.h`). -/
def decodeSuper (d : Disk) (a : Nat) : Superblock :=
  { ninodes := read32 d a
    i_blocks := toSigned16 (read16 d (a + 6))
    z_blocks := toSigned16 (read16 d (a + 8))
    firstdata := read16 d (a + 10)
    log_zone_size := toSigned16 (read16 d (a + 12))
    max_file := read32 d (a + 16)
    zones := read32 d (a + 20)
    magic := toSigned16 (read16 d (a + 24))
    blocksize := read16 d (a + 28)
    subversion := d (a + 30) % 256 }

/-- `struct fs` of `minix_fs.h` (without the `FILE *`). -/
structure FS where
  fs_offset : Nat
  sb : Superblock
  blocksize : Nat
  zonesize : Nat
deriving DecidableEq

/-- Failures of `fs_read_super`: an I/O failure of the positioned read, or
the bad-magic rejection carrying the observed magic value that the C code
prints in its diagnostic. -/
inductive SuperErr where
  | io : SuperErr
  | badMagic : Int → SuperErr
deriving DecidableEq

/-- `fs_read_super` (minix_fs.c): seek to `fs_offset + 1024`, read the
superblock, reject unless `magic == MINIX_MAGIC` (0x4D5A), then derive
`blocksize` and `zonesize = blocksize << log_zone_size` (a `uint32_t`
shift, hence the mod 2^32; a negative shift count is undefined in C and is
modeled by `Int.toNat` clamping).  `readOk` stands for the success of the
`fseek`/`fread` pair. -/
def fs_read_super (d : Disk) (off : Nat) (readOk : Bool) : Except SuperErr FS :=
  if readOk = false then .error .io
  else
    let sb := decodeSuper d (off + 1024)
    if sb.magic ≠ 0x4D5A then .error (.badMagic sb.magic)
    else .ok { fs_offset := off, sb := sb, blocksize := sb.blocksize,
               zonesize := sb.blocksize * 2 ^ sb.log_zone_size.toNat % 4294967296 }

/-- `struct partition_entry` of `minix_fs.h`; the CHS bytes are decoded
nowhere in the program and are omitted. -/
structure PartEntry where
  bootind : Nat
  type : Nat
  lFirst : Nat
  size : Nat
deriving DecidableEq

/-- `read_partition_entry` (minix_fs.c): the 16-byte entry number `index`
of the table at byte `base + 0x1BE`. -/
def readPartitionEntry (d : Disk) (base : Nat) (index : Nat) : PartEntry :=
  { bootind := d (base + 0x1BE + 16 * index) % 256
    type := d (base + 0x1BE + 16 * index + 4) % 256
    lFirst := read32 d (base + 0x1BE + 16 * index + 8)
    size := read32 d (base + 0x1BE + 16 * index + 12) }

/-- `read_boot_signature` (minix_fs.c): bytes 510/511 of the sector at
`base` must be `0x55 0xAA`. -/
def read_boot_signature (d : Disk) (base : Nat) : Bool :=
  (d (base + 510) % 256 == 0x55) && (d (base + 511) % 256 == 0xAA)

/-- `struct options` (minix_fs.h); `part`/`subpart` are C `int`s and may be
negative, hence `Int`. -/
structure Options where
  verbose : Bool
  have_partition : Bool
  have_subpartition : Bool
  part : Int
  subpart : Int
deriving DecidableEq

/-- Failures of `fs_init`. -/
inductive InitErr where
  | badSig : InitErr
  | badIndex : Int → InitErr
  | notMinix : Int → Nat → InitErr
  | superFail : SuperErr → InitErr
deriving DecidableEq

/-- `fs_init` (minix_fs.c): resolve the partition selection to the byte
offset of the filesystem, then read the superblock there.  Note that the
subpartition step does `base += sub.lFirst * SECTOR_SIZE`, i.e. the
subpartition `lFirst` is added to the primary partition's base. -/
def fs_init (d : Disk) (opt : Options) : Except InitErr FS :=
  if ¬opt.have_partition ∧ ¬opt.have_subpartition then
    (fs_read_super d 0 true).mapError .superFail
  else if read_boot_signature d 0 = false then .error .badSig
  else
    let step1 : Except InitErr Nat :=
      if opt.have_partition then
        if opt.part < 0 ∨ 3 < opt.part then .error (.badIndex opt.part)
        else
          let p := readPartitionEntry d 0 opt.part.toNat
          if p.type ≠ 0x81 then .error (.notMinix opt.part p.type)
          else .ok (p.lFirst * 512)
      else .ok 0
    match step1 with
    | .error e => .error e
    | .ok base =>
      let step2 : Except InitErr Nat :=
        if opt.have_subpartition then
          if read_boot_signature d base = false then .error .badSig
          else if opt.subpart < 0 ∨ 3 < opt.subpart then .error (.badIndex opt.subpart)
          else
            let sub := readPartitionEntry d base opt.subpart.toNat
            if sub.type ≠ 0x81 then .error (.notMinix opt.subpart sub.type)
            else .ok (base + sub.lFirst * 512)
        else .ok base
      match step2 with
      | .error e => .error e
      | .ok b2 => (fs_read_super d b2 true).mapError .superFail

/-- `struct inode` of `minix_fs.h` (packed, 64 bytes; trailing unused
word dropped). -/
structure Inode where
  mode : Nat
  links : Nat
  uid : Nat
  gid : Nat
  size : Nat
  atime : Int
  mtime : Int
  ctime : Int
  zone : List Nat
  indirect : Nat
  two_indirect : Nat
deriving DecidableEq

/-- Decode a `struct inode` from the 64 packed bytes at address `a`. -/
def decodeInode (d : Disk) (a : Nat) : Inode :=
  { mode := read16 d a
    links := read16 d (a + 2)
    uid := read16 d (a + 4)
    gid := read16 d (a + 6)
    size := read32 d (a + 8)
    atime := toSigned32 (read32 d (a + 12))
    mtime := toSigned32 (read32 d (a + 16))
    ctime := toSigned32 (read32 d (a + 20))
    zone := (List.range 7).map (fun i => read32 d (a + 24 + 4 * i))
    indirect := read32 d (a + 52)
    two_indirect := read32 d (a + 56) }

/-- `inode_table_block = 2 + i_blocks + z_blocks`, computed in a `uint32_t`
as in `fs_get_inode` (the `int16_t` summands are converted, the sum wraps
mod 2^32). -/
def inode_table_block (sb : Superblock) : Nat :=
  ((2 + sb.i_blocks + sb.z_blocks) % 4294967296).toNat

/-- The byte offset of inode record `inum`, as computed by
`fs_get_inode`. -/
def inodeOffset (fs : FS) (inum : Nat) : Nat :=
  fs.fs_offset + inode_table_block fs.sb * fs.blocksize + (inum - 1) * 64

/-- Failure of `fs_get_inode`: the "Invalid inode number %u" diagnostic. -/
inductive InodeErr where
  | invalid : Nat → InodeErr
deriving DecidableEq

/-- `fs_get_inode` (minix_fs.c): reject `inum == 0 || inum > ninodes`,
otherwise read the 64-byte record at `inodeOffset`. -/
def fs_get_inode (d : Disk) (fs : FS) (inum : Nat) : Except InodeErr Inode :=
  if inum = 0 ∨ fs.sb.ninodes < inum then .error (.invalid inum)
  else .ok (decodeInode d (inodeOffset fs inum))

/-- `fs_is_dir` (minix_fs.c): `(mode & I_TYPE_MASK) == I_DIRECTORY`. -/
def fs_is_dir (ino : Inode) : Bool := ino.mode &&& 0o170000 == 0o040000

/-- `fs_is_regular` (minix_fs.c): `(mode & I_TYPE_MASK) == I_REGULAR`. -/
def fs_is_regular (ino : Inode) : Bool := ino.mode &&& 0o170000 == 0o100000

/-- Concrete image for the partition-chain theorems: MBR signature, a MINIX
primary partition 0 with `lFirst = 1`, inside it a subpartition table whose
entry 0 is MINIX with `lFirst = 1`, and a valid superblock (blocksize 512,
`log_zone_size` 0) at byte `1024 + 1024`. -/
def exDisk : Disk := fun a =>
  if a = 510 then 0x55 else if a = 511 then 0xAA
  else if a = 450 then 0x81 else if a = 454 then 1
  else if a = 1022 then 0x55 else if a = 1023 then 0xAA
  else if a = 962 then 0x81 else if a = 966 then 1
  else if a = 2072 then 0x5A else if a = 2073 then 0x4D
  else if a = 2077 then 2
  else 0

/-- `-p 0 -s 0` selection. -/
def exOpt : Options :=
  { verbose := false, have_partition := true, have_subpartition := true,
    part := 0, subpart := 0 }

/-- The filesystem context `fs_init` produces on `exDisk` with `exOpt`. -/
def exFS : FS :=
  { fs_offset := 1024, sb := decodeSuper exDisk 2048,
    blocksize := 512, zonesize := 512 }

/-- Entry `i` of the table of 32-bit zone numbers stored at the start of
zone `z`: `fs_copy_file_to_stream` (minget.c) reads the first
`ind_bytes = blocksize` bytes of the zone at
`fs_offset + z * zonesize` and indexes it as a `uint32_t` array. -/
def indEntry (d : Disk) (fs : FS) (z : Nat) (i : Nat) : Nat :=
  read32 d (fs.fs_offset + z * fs.zonesize + 4 * i)

/-- The zone number backing logical block `k` of an inode, following the
direct / single-indirect / double-indirect chain of
`fs_copy_file_to_stream` (minget.c) with
`entries_per_ind = blocksize / 4`; `none` is the `break` once `l1`
exceeds what a double-indirect table can address. -/
def zoneAt (d : Disk) (fs : FS) (ino : Inode) (k : Nat) : Option Nat :=
  let E := fs.blocksize / 4
  if k < 7 then some (ino.zone.getD k 0)
  else if k < 7 + E then
    some (if ino.indirect = 0 then 0 else indEntry d fs ino.indirect (k - 7))
  else
    let j := k - 7 - E
    let l1 := j / E
    let l2 := j % E
    if E ≤ l1 then none
    else some (if ino.two_indirect = 0 then 0
      else if indEntry d fs ino.two_indirect l1 = 0 then 0
      else indEntry d fs (indEntry d fs ino.two_indirect l1) l2)

/-- Result of `copy_from_zone` (minget.c): the bytes written to the output
stream, the updated `remaining`, and the byte addresses read from the
image (empty for a hole). -/
structure CopyOut where
  out : List Nat
  remaining : Nat
  reads : List Nat
deriving DecidableEq

/-- `copy_from_zone` (minget.c): emit `min(remaining, zonesize)` bytes for
one zone — zeros without touching the image when `zone == 0`, otherwise
the bytes at `fs_offset + zone * zonesize`.  The internal 4096-byte
chunking does not change the bytes produced or their order and is not
modeled. -/
def copy_from_zone (d : Disk) (fs : FS) (zone : Nat) (remaining : Nat) :
    CopyOut :=
  if remaining = 0 then ⟨[], remaining, []⟩
  else
    let to_do := min remaining fs.zonesize
    if zone = 0 then ⟨List.replicate to_do 0, remaining - to_do, []⟩
    else
      let base := fs.fs_offset + zone * fs.zonesize
      ⟨(List.range to_do).map (fun i => d (base + i) % 256),
        remaining - to_do,
        (List.range to_do).map (fun i => base + i)⟩

/-- `7 + E + E*E` with `E = blocksize / 4`: the number of logical blocks
addressable through the direct, single- and double-indirect tiers. -/
def copyLimit (fs : FS) : Nat :=
  7 + fs.blocksize / 4 + (fs.blocksize / 4) * (fs.blocksize / 4)

/-- The `while (remaining > 0)` loop of `fs_copy_file_to_stream`
(minget.c): walk logical blocks from `k`, copying each zone, stopping when
`remaining` hits 0 or the walker `break`s.  Returns the output bytes and
the final `remaining` (nonzero means the failing "bytes than handled"
path).  `fuel` only bounds the recursion; it is initialized above the
block limit at which the walk must `break`, so it never runs out. -/
def copyAux (d : Disk) (fs : FS) (ino : Inode) :
    Nat → Nat → Nat → List Nat × Nat
  | 0, _, remaining => ([], remaining)
  | fuel + 1, k, remaining =>
    if remaining = 0 then ([], 0)
    else
      match zoneAt d fs ino k with
      | none => ([], remaining)
      | some z =>
        let c := copy_from_zone d fs z remaining
        let rest := copyAux d fs ino fuel (k + 1) c.remaining
        (c.out ++ rest.1, rest.2)

/-- `fs_copy_file_to_stream` (minget.c): the produced byte stream and the
count of unreachable bytes (the `remaining != 0` warning path; 0 means
`rc = 0`, success). -/
def fs_copy_file_to_stream (d : Disk) (fs : FS) (ino : Inode) :
    List Nat × Nat :=
  copyAux d fs ino (copyLimit fs + 1) 0 ino.size

/-- Sample inode for witnesses: a 5-byte regular file in a single hole
zone. -/
def wInoSmall : Inode :=
  { mode := 0o100644, links := 1, uid := 0, gid := 0, size := 5,
    atime := 0, mtime := 0, ctime := 0, zone := [0, 0, 0, 0, 0, 0, 0],
    indirect := 0, two_indirect := 0 }

/-- Sample inode for witnesses: 200 bytes, larger than the
`(7 + 2 + 4) * 8 = 104` addressable bytes of `wFS`. -/
def wInoBig : Inode :=
  { mode := 0o100644, links := 1, uid := 0, gid := 0, size := 200,
    atime := 0, mtime := 0, ctime := 0, zone := [0, 0, 0, 0, 0, 0, 0],
    indirect := 0, two_indirect := 0 }

/-- Sample filesystem context for witnesses: blocksize 8 (so `E = 2` zone
pointers per indirect block), zonesize 8, offset 0, 5 inodes. -/
def wFS : FS :=
  { fs_offset := 0
    sb := { ninodes := 5, i_blocks := 1, z_blocks := 1, firstdata := 4,
            log_zone_size := 0, max_file := 1000, zones := 100,
            magic := 0x4D5A, blocksize := 8, subversion := 0 }
    blocksize := 8, zonesize := 8 }

/-- All-zero disk, for witnesses. -/
def zeroDisk : Disk := fun _ => 0

theorem fs_read_super_offset {d : Disk} {off : Nat} {ro : Bool} {fs : FS}
    (h : fs_read_super d off ro = .ok fs) : fs.fs_offset = off := by
  unfold fs_read_super at h
  split at h
  · exact absurd h (by simp)
  · simp only at h
    split at h
    · exact absurd h (by simp)
    · cases h
      rfl

/-- C1 (counterexample).  On `exDisk` with `-p 0 -s 0`, the primary
partition has `lFirst = 1` (base 512) and the subpartition entry also has
`lFirst = 1`; the filesystem offset produced by `fs_init` is 1024 = base +
sub.lFirst*512, not `sub.lFirst * 512 = 512`: the subpartition `lFirst` is
treated as relative to the primary, not absolute. -/
theorem fs_init_sub_offset_counterexample :
    (readPartitionEntry exDisk 0 0).lFirst = 1 ∧
    (readPartitionEntry exDisk 512 0).lFirst = 1 ∧
    (fs_init exDisk exOpt).map FS.fs_offset = .ok 1024 ∧
    (1024 : Nat) ≠ (readPartitionEntry exDisk 512 0).lFirst * 512 := by
  refine ⟨by decide, by decide, ?_, by decide⟩
  rfl

/-- C1 (amended).  For every primary+subpartition selection on which
`fs_init` succeeds, the filesystem offset is `primary.lFirst * 512 +
sub.lFirst * 512`: the subpartition's `lFirst` is interpreted relative to
the primary partition's base, the subpartition table being read at that
base. -/
theorem fs_init_sub_offset_relative (d : Disk) (opt : Options) (fs : FS)
    (hp : opt.have_partition = true) (hs : opt.have_subpartition = true)
    (h : fs_init d opt = .ok fs) :
    fs.fs_offset =
      (readPartitionEntry d 0 opt.part.toNat).lFirst * 512 +
      (readPartitionEntry d ((readPartitionEntry d 0 opt.part.toNat).lFirst * 512)
        opt.subpart.toNat).lFirst * 512 := by
  unfold fs_init at h
  rw [hp, hs] at h
  simp only [not_true, false_and, if_false, if_true] at h
  split at h
  · exact absurd h (by simp)
  · split at h
    · exact absurd h (by simp)
    · rename_i base heq
      split at h
      · exact absurd h (by simp)
      · rename_i b2 heq2
        have hok : fs_read_super d b2 true = .ok fs := by
          cases hr : fs_read_super d b2 true with
          | error e => rw [hr] at h; exact absurd h (by simp [Except.mapError])
          | ok v =>
            rw [hr] at h
            simp only [Except.mapError] at h
            cases h
            rfl
        have hoff := fs_read_super_offset hok
        have hbase : base = (readPartitionEntry d 0 opt.part.toNat).lFirst * 512 := by
          split at heq
          · exact absurd heq (by simp)
          · split at heq
            · exact absurd heq (by simp)
            · cases heq; rfl
        have hb2 : b2 = base + (readPartitionEntry d base opt.subpart.toNat).lFirst * 512 := by
          split at heq2
          · exact absurd heq2 (by simp)
          · split at heq2
            · exact absurd heq2 (by simp)
            · split at heq2
              · exact absurd heq2 (by simp)
              · cases heq2; rfl
        rw [hoff, hb2, hbase]

/-- The copy loop of `canonicalize_path` (minix_fs.c): walk the input
bytes with the running output length `j` (bounded by the 1024-byte `tmp`
buffer, guard `j + 1 < sizeof(tmp)`) and the `last_was_slash` flag,
collapsing runs of `/` (byte 47).  A path is the NUL-free byte list of the
C string. -/
def canonAux : List Nat → Nat → Bool → List Nat
  | [], _, _ => []
  | c :: rest, j, lws =>
    if j + 1 < 1024 then
      if c = 47 then
        if lws then canonAux rest j true
        else 47 :: canonAux rest (j + 1) true
      else c :: canonAux rest (j + 1) false
    else []

/-- `canonicalize_path` (minix_fs.c): `NULL`/empty becomes "/"; otherwise
a leading `/` is ensured, duplicate slashes collapse (`canonAux`), one
trailing slash is stripped unless the result is just "/", and the result
is copied into a buffer of `outsz` bytes (`strncpy` plus forced NUL, hence
`take (outsz - 1)`). -/
def canonicalize_path (inp : List Nat) (outsz : Nat) : List Nat :=
  if inp = [] then [47].take (outsz - 1)
  else
    let tmp0 := if inp.headD 0 = 47 then canonAux inp 0 false
                else 47 :: canonAux inp 1 true
    let tmp := if 1 < tmp0.length ∧ tmp0.getLast? = some 47
               then tmp0.dropLast else tmp0
    tmp.take (outsz - 1)

/-- No two adjacent `/` bytes. -/
def noAdjSlash : List Nat → Bool
  | a :: b :: rest => (!(a == 47) || !(b == 47)) && noAdjSlash (b :: rest)
  | _ => true

/-- Sample path "a//b/" for witnesses. -/
def exPath : List Nat := [97, 47, 47, 98, 47]

/-- The name a directory entry presents to `strcmp`: `scan_dir_zone`
(minix_fs.c) copies the 60-byte field into `dname[61]`, forces
`dname[60] = 0`, so the C string is the bytes up to the first NUL within
the 60-byte field. -/
def cname (nb : List Nat) : List Nat := (nb.take 60).takeWhile (fun b => b != 0)

/-- The `strcmp(dname, name) == 0` test of `scan_dir_zone`. -/
def nameMatches (nb target : List Nat) : Bool := cname nb == target

/-- `struct dirent` of `minix_fs.h` (packed, 64 bytes). -/
structure Dirent where
  inode : Nat
  name : List Nat
deriving DecidableEq

/-- Decode a `struct dirent` from the 64 packed bytes at address `a`. -/
def readDirent (d : Disk) (a : Nat) : Dirent :=
  { inode := read32 d a
    name := (List.range 60).map (fun i => d (a + 4 + i) % 256) }

/-- `scan_dir_zone` (minix_fs.c) in lookup mode (`list_mode == 0`): walk
the `n = to_read / 64` whole entries of one zone starting at entry index
`t` with the directory's `remaining` counter; a nonzero entry whose name
matches returns its inode number at once; otherwise `remaining` is
decremented per entry, clamping to 0 (and stopping) when it falls to one
entry or less. -/
def scanLookup (d : Disk) (base : Nat) (target : List Nat) :
    Nat → Nat → Nat → Option Nat × Nat
  | 0, _, r => (none, r)
  | n + 1, t, r =>
    let e := readDirent d (base + 64 * t)
    if e.inode ≠ 0 ∧ nameMatches e.name target = true then (some e.inode, r)
    else if r ≤ 64 then (none, 0)
    else scanLookup d base target n (t + 1) (r - 64)

/-- `scan_dir_zone` (minix_fs.c) in list mode (`list_mode == 1`): the same
walk, emitting `(inode, dname)` for each nonzero entry whose child inode
fetch succeeds; a failing `fs_get_inode` aborts with the error flag set
(entries already printed stay printed). -/
def scanList (d : Disk) (fs : FS) (base : Nat) :
    Nat → Nat → Nat → List (Nat × List Nat) × Bool × Nat
  | 0, _, r => ([], false, r)
  | n + 1, t, r =>
    let e := readDirent d (base + 64 * t)
    if e.inode ≠ 0 then
      match fs_get_inode d fs e.inode with
      | .error _ => ([], true, r)
      | .ok _ =>
        if r ≤ 64 then ([(e.inode, cname e.name)], false, 0)
        else
          let rest := scanList d fs base n (t + 1) (r - 64)
          ((e.inode, cname e.name) :: rest.1, rest.2.1, rest.2.2)
    else
      if r ≤ 64 then ([], false, 0)
      else scanList d fs base n (t + 1) (r - 64)

/-- The zone loop shared by the direct and single-indirect sections of
`dir_lookup` (minix_fs.c): skip holes (breaking when `remaining` would be
exhausted by the hole), scan `min(remaining, zonesize)` bytes of each
allocated zone, and return on the first find. -/
def lookupZones (d : Disk) (fs : FS) (target : List Nat) :
    List Nat → Nat → Option Nat × Nat
  | [], r => (none, r)
  | z :: zs, r =>
    if r = 0 then (none, r)
    else if z = 0 then
      if r ≤ fs.zonesize then (none, r)
      else lookupZones d fs target zs (r - fs.zonesize)
    else
      let s := scanLookup d (fs.fs_offset + z * fs.zonesize) target
        (min r fs.zonesize / 64) 0 r
      match s.1 with
      | some i => (some i, s.2)
      | none => lookupZones d fs target zs s.2

/-- The zone loop shared by the direct and single-indirect sections of
`fs_list_dir` (minix_fs.c). -/
def listZones (d : Disk) (fs : FS) :
    List Nat → Nat → List (Nat × List Nat) × Bool × Nat
  | [], r => ([], false, r)
  | z :: zs, r =>
    if r = 0 then ([], false, r)
    else if z = 0 then
      if r ≤ fs.zonesize then ([], false, r)
      else listZones d fs zs (r - fs.zonesize)
    else
      let s := scanList d fs (fs.fs_offset + z * fs.zonesize)
        (min r fs.zonesize / 64) 0 r
      if s.2.1 then (s.1, true, s.2.2)
      else
        let rest := listZones d fs zs s.2.2
        (s.1 ++ rest.1, rest.2.1, rest.2.2)

/-- The single-indirect table as read by the directory code
(`nentries = zonesize / 4`, `fread` of `zonesize` bytes at
`fs_offset + indirect * zonesize`). -/
def indTableDir (d : Disk) (fs : FS) (z : Nat) : List Nat :=
  (List.range (fs.zonesize / 4)).map
    (fun i => read32 d (fs.fs_offset + z * fs.zonesize + 4 * i))

/-- `dir_lookup` (minix_fs.c): direct zones, then (when `remaining > 0`
and an indirect zone exists) the single-indirect zones; `.ok none` is the
"not found" return 0 with `*out_inum = 0`, the error is the
non-directory rejection. -/
def dir_lookup (d : Disk) (fs : FS) (ino : Inode) (target : List Nat) :
    Except Unit (Option Nat) :=
  if fs_is_dir ino = false then .error ()
  else
    let s := lookupZones d fs target ino.zone ino.size
    match s.1 with
    | some i => .ok (some i)
    | none =>
      if 0 < s.2 ∧ ino.indirect ≠ 0 then
        let s2 := lookupZones d fs target (indTableDir d fs ino.indirect) s.2
        match s2.1 with
        | some i => .ok (some i)
        | none => .ok none
      else .ok none

/-- `fs_list_dir` (minix_fs.c): the emitted `(inode, dname)` lines in
order, plus the error flag. -/
def fs_list_dir (d : Disk) (fs : FS) (ino : Inode) :
    List (Nat × List Nat) × Bool :=
  if fs_is_dir ino = false then ([], true)
  else
    let s := listZones d fs ino.zone ino.size
    if s.2.1 then (s.1, true)
    else if 0 < s.2.2 ∧ ino.indirect ≠ 0 then
      let s2 := listZones d fs (indTableDir d fs ino.indirect) s.2.2
      (s.1 ++ s2.1, s2.2.1)
    else (s.1, false)

/-- Directory data for the enumeration/lookup theorems: zone 1 (bytes
1024..2047) holds two 64-byte entries, inode 2 named "a" and inode 3 also
named "a". -/
def dDup : Disk := fun a =>
  if a = 1024 then 2 else if a = 1028 then 97
  else if a = 1088 then 3 else if a = 1092 then 97
  else 0

/-- Filesystem context for `dDup`: blocksize = zonesize = 1024, 5
inodes. -/
def dupFS : FS :=
  { fs_offset := 0
    sb := { ninodes := 5, i_blocks := 1, z_blocks := 1, firstdata := 4,
            log_zone_size := 0, max_file := 100000, zones := 100,
            magic := 0x4D5A, blocksize := 1024, subversion := 0 }
    blocksize := 1024, zonesize := 1024 }

/-- Directory inode over `dDup`: 128 bytes (two entries) in zone 1. -/
def dupIno : Inode :=
  { mode := 0o040755, links := 2, uid := 0, gid := 0, size := 128,
    atime := 0, mtime := 0, ctime := 0, zone := [1, 0, 0, 0, 0, 0, 0],
    indirect := 0, two_indirect := 0 }

/-- Failures of `fs_find_path`, tagged by which diagnostic the C code
prints. -/
inductive FindErr where
  | lookupFail : FindErr
  | notFound : FindErr
  | notDir : FindErr
  | inodeFail : FindErr
deriving DecidableEq

/-- The diagnostic line printed for each failure of `fs_find_path`
(minix_fs.c). -/
def FindErr.message : FindErr → String
  | .lookupFail => "dir_lookup on non-directory"
  | .notFound => "File not found."
  | .notDir => "Not a directory while traversing path."
  | .inodeFail => "Invalid inode number"

/-- `strtok(canon + 1, "/")` iteration: the maximal nonempty runs of
non-`/` bytes, in order.  `fuel` is the length of the list, consumed at
least one byte per step. -/
def tokAux : Nat → List Nat → List (List Nat)
  | 0, _ => []
  | _, [] => []
  | fuel + 1, c :: rest =>
    if c = 47 then tokAux fuel rest
    else (c :: rest.takeWhile (fun b => b != 47)) ::
      tokAux fuel (rest.dropWhile (fun b => b != 47))

/-- All `strtok` tokens of a byte list. -/
def tokenize (l : List Nat) : List (List Nat) := tokAux l.length l

/-- The component walk of `fs_find_path` (minix_fs.c): for each token
require a directory, look the token up, fail with "File not found." when
the lookup returns 0 or a zero inode number, and descend into the
child. -/
def fs_find_walk (d : Disk) (fs : FS) :
    List (List Nat) → Inode → Nat → Except FindErr (Inode × Nat)
  | [], cur, n => .ok (cur, n)
  | tok :: toks, cur, _n =>
    if fs_is_dir cur = false then .error .notDir
    else
      match dir_lookup d fs cur tok with
      | .error _ => .error .lookupFail
      | .ok none => .error .notFound
      | .ok (some child) =>
        if child = 0 then .error .notFound
        else
          match fs_get_inode d fs child with
          | .error _ => .error .inodeFail
          | .ok cino => fs_find_walk d fs toks cino child

/-- `fs_find_path` (minix_fs.c): canonicalize, fetch the root inode 1,
return it for the path "/", otherwise walk the slash-separated
components. -/
def fs_find_path (d : Disk) (fs : FS) (path : List Nat) :
    Except FindErr (Inode × Nat) :=
  let canon := canonicalize_path path 1024
  match fs_get_inode d fs 1 with
  | .error _ => .error .inodeFail
  | .ok root =>
    if canon = [47] then .ok (root, 1)
    else fs_find_walk d fs (tokenize (canon.drop 1)) root 1

theorem zoneAt_none_iff (d : Disk) (fs : FS) (ino : Inode) (k : Nat) :
    zoneAt d fs ino k = none ↔ copyLimit fs ≤ k := by
  simp only [zoneAt, copyLimit]
  by_cases h7 : k < 7
  · rw [if_pos h7]
    exact ⟨fun hcon => absurd hcon (by simp), fun hk => absurd hk (by omega)⟩
  · rw [if_neg h7]
    by_cases hs : k < 7 + fs.blocksize / 4
    · rw [if_pos hs]
      exact ⟨fun hcon => absurd hcon (by simp), fun hk => absurd hk (by omega)⟩
    · rw [if_neg hs]
      by_cases hz : fs.blocksize / 4 = 0
      · rw [hz, if_pos (Nat.zero_le _)]
        exact ⟨fun _ => by omega, fun _ => rfl⟩
      · have hpos : 0 < fs.blocksize / 4 := Nat.pos_of_ne_zero hz
        have hdiv : fs.blocksize / 4 ≤
              (k - 7 - fs.blocksize / 4) / (fs.blocksize / 4) ↔
            fs.blocksize / 4 * (fs.blocksize / 4) ≤ k - 7 - fs.blocksize / 4 :=
          Nat.le_div_iff_mul_le hpos
        by_cases hle : fs.blocksize / 4 ≤
            (k - 7 - fs.blocksize / 4) / (fs.blocksize / 4)
        · rw [if_pos hle]
          have hM := hdiv.mp hle
          exact ⟨fun _ => by omega, fun _ => rfl⟩
        · rw [if_neg hle]
          exact ⟨fun hcon => absurd hcon (by simp),
            fun hk => absurd (hdiv.mpr (by omega)) hle⟩

theorem decodeSuper_congr (d d' : Disk) (a : Nat)
    (h : ∀ i, a ≤ i → i < a + 31 → d i = d' i) :
    decodeSuper d a = decodeSuper d' a := by
  unfold decodeSuper read16 read32
  rw [h a (by omega) (by omega), h (a + 1) (by omega) (by omega),
    h (a + 2) (by omega) (by omega), h (a + 3) (by omega) (by omega),
    h (a + 6) (by omega) (by omega), h (a + 6 + 1) (by omega) (by omega),
    h (a + 8) (by omega) (by omega), h (a + 8 + 1) (by omega) (by omega),
    h (a + 10) (by omega) (by omega), h (a + 10 + 1) (by omega) (by omega),
    h (a + 12) (by omega) (by omega), h (a + 12 + 1) (by omega) (by omega),
    h (a + 16) (by omega) (by omega), h (a + 16 + 1) (by omega) (by omega),
    h (a + 16 + 2) (by omega) (by omega), h (a + 16 + 3) (by omega) (by omega),
    h (a + 20) (by omega) (by omega), h (a + 20 + 1) (by omega) (by omega),
    h (a + 20 + 2) (by omega) (by omega), h (a + 20 + 3) (by omega) (by omega),
    h (a + 24) (by omega) (by omega), h (a + 24 + 1) (by omega) (by omega),
    h (a + 28) (by omega) (by omega), h (a + 28 + 1) (by omega) (by omega),
    h (a + 30) (by omega) (by omega)]

/-- C5.  `fs_read_super` succeeds iff the positioned read succeeds and the
magic field decoded at `fs_offset + 1024` equals 0x4D5A; on a bad magic the
error carries exactly the observed magic value (so no other superblock
field influences the outcome); on success `blocksize` comes from the
superblock and `zonesize = blocksize << log_zone_size` (a `uint32_t`
shift); and the result depends only on the 31 superblock bytes at
`fs_offset + 1024`. -/
theorem fs_read_super_spec (d d' : Disk) (off : Nat) (readOk : Bool) :
    ((∃ fs, fs_read_super d off readOk = .ok fs) ↔
      readOk = true ∧ (decodeSuper d (off + 1024)).magic = 0x4D5A) ∧
    (readOk = true → (decodeSuper d (off + 1024)).magic ≠ 0x4D5A →
      fs_read_super d off readOk =
        .error (.badMagic (decodeSuper d (off + 1024)).magic)) ∧
    (∀ fs, fs_read_super d off readOk = .ok fs →
      fs.fs_offset = off ∧
      fs.blocksize = (decodeSuper d (off + 1024)).blocksize ∧
      fs.zonesize = fs.blocksize *
        2 ^ (decodeSuper d (off + 1024)).log_zone_size.toNat % 4294967296) ∧
    ((∀ i, off + 1024 ≤ i → i < off + 1024 + 31 → d i = d' i) →
      fs_read_super d off readOk = fs_read_super d' off readOk) := by
  refine ⟨?_, ?_, ?_, ?_⟩
  · unfold fs_read_super
    cases readOk with
    | false => simp
    | true =>
      by_cases hm : (decodeSuper d (off + 1024)).magic = 0x4D5A <;>
        simp [hm]
  · intro hro hm
    unfold fs_read_super
    rw [hro]
    simp [hm]
  · intro fs h
    unfold fs_read_super at h
    split at h
    · exact absurd h (by simp)
    · simp only at h
      split at h
      · exact absurd h (by simp)
      · cases h
        exact ⟨rfl, rfl, rfl⟩
  · intro h
    unfold fs_read_super
    rw [decodeSuper_congr d d' (off + 1024) h]

/-- Witness for C5: a zero image fails with the observed magic 0, and on
`exDisk` at offset 1024 the decoded blocksize/zonesize are populated. -/
theorem fs_read_super_spec_witness :
    fs_read_super zeroDisk 0 true =
      .error (.badMagic (decodeSuper zeroDisk (0 + 1024)).magic) ∧
    (exFS.fs_offset = 1024 ∧
      exFS.blocksize = (decodeSuper exDisk (1024 + 1024)).blocksize ∧
      exFS.zonesize = exFS.blocksize *
        2 ^ (decodeSuper exDisk (1024 + 1024)).log_zone_size.toNat % 4294967296) :=
  ⟨(fs_read_super_spec zeroDisk zeroDisk 0 true).2.1 rfl (by decide),
   (fs_read_super_spec exDisk exDisk 1024 true).2.2.1 exFS (by rfl)⟩

/-- C6.  `fs_get_inode` fails with the "invalid inode number" diagnostic
exactly when `n = 0` or `n > ninodes` (in particular at 0 and at
`ninodes + 1`), and otherwise reads the 64-byte record at
`fs_offset + (2 + i_blocks + z_blocks) * blocksize + (n - 1) * 64`
(the `uint32_t` sum does not wrap when the bitmap counts are nonnegative
and small). -/
theorem fs_get_inode_spec (d : Disk) (fs : FS) (n : Nat) :
    ((∃ e, fs_get_inode d fs n = .error e) ↔ n = 0 ∨ fs.sb.ninodes < n) ∧
    fs_get_inode d fs 0 = .error (.invalid 0) ∧
    fs_get_inode d fs (fs.sb.ninodes + 1) =
      .error (.invalid (fs.sb.ninodes + 1)) ∧
    (1 ≤ n → n ≤ fs.sb.ninodes → 0 ≤ fs.sb.i_blocks → 0 ≤ fs.sb.z_blocks →
      2 + fs.sb.i_blocks + fs.sb.z_blocks < 4294967296 →
      fs_get_inode d fs n = .ok (decodeInode d (fs.fs_offset +
        (2 + fs.sb.i_blocks.toNat + fs.sb.z_blocks.toNat) * fs.blocksize +
        (n - 1) * 64))) := by
  refine ⟨?_, ?_, ?_, ?_⟩
  · unfold fs_get_inode
    split
    · rename_i hc
      simpa using hc
    · rename_i hc
      simpa using hc
  · simp [fs_get_inode]
  · simp [fs_get_inode]
  · intro h1 h2 hi hz hlt
    unfold fs_get_inode
    rw [if_neg (by omega)]
    have : inodeOffset fs n = fs.fs_offset +
        (2 + fs.sb.i_blocks.toNat + fs.sb.z_blocks.toNat) * fs.blocksize +
        (n - 1) * 64 := by
      unfold inodeOffset inode_table_block
      have h2 : ((2 : Int) + fs.sb.i_blocks + fs.sb.z_blocks).toNat =
          2 + fs.sb.i_blocks.toNat + fs.sb.z_blocks.toNat := by omega
      rw [Int.emod_eq_of_lt (by omega) (by omega), h2]
    rw [this]

/-- Witness for C6 on the sample context: inode `ninodes + 1 = 6` fails,
inode 2 reads the record at the specified offset. -/
theorem fs_get_inode_spec_witness :
    fs_get_inode zeroDisk wFS (wFS.sb.ninodes + 1) =
      .error (.invalid (wFS.sb.ninodes + 1)) ∧
    fs_get_inode zeroDisk wFS 2 = .ok (decodeInode zeroDisk (wFS.fs_offset +
      (2 + wFS.sb.i_blocks.toNat + wFS.sb.z_blocks.toNat) * wFS.blocksize +
      (2 - 1) * 64)) :=
  ⟨(fs_get_inode_spec zeroDisk wFS 0).2.2.1,
   (fs_get_inode_spec zeroDisk wFS 2).2.2.2 (by decide) (by decide)
     (by decide) (by decide) (by decide)⟩

/-- Witness for C1's amended theorem at the concrete image `exDisk`. -/
theorem fs_init_sub_offset_relative_witness :
    fs_init exDisk exOpt = .ok exFS ∧
    exFS.fs_offset =
      (readPartitionEntry exDisk 0 (0 : Int).toNat).lFirst * 512 +
      (readPartitionEntry exDisk
        ((readPartitionEntry exDisk 0 (0 : Int).toNat).lFirst * 512)
        (0 : Int).toNat).lFirst * 512 :=
  ⟨by rfl, fs_init_sub_offset_relative exDisk exOpt exFS rfl rfl (by rfl)⟩

theorem copy_from_zone_remaining (d : Disk) (fs : FS) (z r : Nat) :
    (copy_from_zone d fs z r).remaining = r - min r fs.zonesize := by
  unfold copy_from_zone
  split
  · simp
    omega
  · split <;> simp

theorem copy_from_zone_length (d : Disk) (fs : FS) (z r : Nat) :
    (copy_from_zone d fs z r).out.length = min r fs.zonesize := by
  unfold copy_from_zone
  split
  · simp
    omega
  · split <;> simp

theorem copyLimit_split (fs : FS) (k : Nat) (h : k < copyLimit fs) :
    (copyLimit fs - k) * fs.zonesize =
      fs.zonesize + (copyLimit fs - (k + 1)) * fs.zonesize := by
  have h1 : copyLimit fs - k = (copyLimit fs - (k + 1)) + 1 := by omega
  rw [h1]
  ring

theorem copyAux_complete (d : Disk) (fs : FS) (ino : Inode) (fuel : Nat) :
    ∀ k r, copyLimit fs + 1 ≤ fuel + k →
      r ≤ (copyLimit fs - k) * fs.zonesize →
      (copyAux d fs ino fuel k r).1.length = r ∧
      (copyAux d fs ino fuel k r).2 = 0 := by
  induction fuel with
  | zero =>
    intro k r hf hr
    have hk : copyLimit fs - k = 0 := by omega
    rw [hk] at hr
    simp only [Nat.zero_mul, Nat.le_zero] at hr
    subst hr
    simp [copyAux]
  | succ fuel ih =>
    intro k r hf hr
    by_cases hr0 : r = 0
    · subst hr0
      simp [copyAux]
    · have hkl : k < copyLimit fs := by
        by_contra hk
        have hz : copyLimit fs - k = 0 := by omega
        rw [hz] at hr
        simp only [Nat.zero_mul, Nat.le_zero] at hr
        exact hr0 hr
      obtain ⟨z, hz⟩ : ∃ z, zoneAt d fs ino k = some z := by
        cases hcase : zoneAt d fs ino k with
        | none => exact absurd ((zoneAt_none_iff d fs ino k).mp hcase) (by omega)
        | some z => exact ⟨z, rfl⟩
      have hrem := copy_from_zone_remaining d fs z r
      have hlen := copy_from_zone_length d fs z r
      have hsplit := copyLimit_split fs k hkl
      have hrec := ih (k + 1) (r - min r fs.zonesize) (by omega) (by omega)
      simp only [copyAux, if_neg hr0, hz]
      constructor
      · simp only [List.length_append, hlen, hrem] at *
        omega
      · simp only [hrem] at *
        exact hrec.2

theorem copyAux_overflow (d : Disk) (fs : FS) (ino : Inode) (fuel : Nat) :
    ∀ k r, copyLimit fs + 1 ≤ fuel + k →
      (copyLimit fs - k) * fs.zonesize < r →
      (copyAux d fs ino fuel k r).1.length = (copyLimit fs - k) * fs.zonesize ∧
      (copyAux d fs ino fuel k r).2 = r - (copyLimit fs - k) * fs.zonesize := by
  induction fuel with
  | zero =>
    intro k r hf hr
    have hk : copyLimit fs - k = 0 := by omega
    rw [hk]
    simp [copyAux]
  | succ fuel ih =>
    intro k r hf hr
    have hr0 : r ≠ 0 := by
      intro h
      rw [h] at hr
      omega
    by_cases hkl : k < copyLimit fs
    · obtain ⟨z, hz⟩ : ∃ z, zoneAt d fs ino k = some z := by
        cases hcase : zoneAt d fs ino k with
        | none => exact absurd ((zoneAt_none_iff d fs ino k).mp hcase) (by omega)
        | some z => exact ⟨z, rfl⟩
      have hrem := copy_from_zone_remaining d fs z r
      have hlen := copy_from_zone_length d fs z r
      have hsplit := copyLimit_split fs k hkl
      have hmin : min r fs.zonesize = fs.zonesize := by omega
      have hrec := ih (k + 1) (r - fs.zonesize) (by omega) (by omega)
      simp only [copyAux, if_neg hr0, hz]
      rw [hmin] at hrem
      constructor
      · simp only [List.length_append, hlen, hrem, hmin] at *
        omega
      · simp only [hrem] at *
        omega
    · have hnone : zoneAt d fs ino k = none :=
        (zoneAt_none_iff d fs ino k).mpr (by omega)
      have hk : copyLimit fs - k = 0 := by omega
      rw [hk]
      simp only [copyAux, if_neg hr0, hnone]
      simp

/-- C2.  The zone walker of the file materializer, with
`E = blocksize / 4` 32-bit pointers per indirect block: direct slots for
`k < 7`; the single-indirect table entry `k - 7` (0 when `indirect == 0`)
for `7 ≤ k < 7 + E`; the second-level entry `l2 = j % E` of the table
selected by `l1 = j / E`, `j = k - 7 - E` (0 when `two_indirect == 0` or
the first-level entry is 0) for `7 + E ≤ k < 7 + E + E*E`; and
termination of the walk for `k ≥ 7 + E + E*E`. -/
theorem zoneAt_spec (d : Disk) (fs : FS) (ino : Inode) (k : Nat) :
    (k < 7 → zoneAt d fs ino k = some (ino.zone.getD k 0)) ∧
    (7 ≤ k → k < 7 + fs.blocksize / 4 →
      zoneAt d fs ino k = some (if ino.indirect = 0 then 0
        else indEntry d fs ino.indirect (k - 7))) ∧
    (7 + fs.blocksize / 4 ≤ k →
      k < 7 + fs.blocksize / 4 + fs.blocksize / 4 * (fs.blocksize / 4) →
      zoneAt d fs ino k = some (if ino.two_indirect = 0 then 0
        else if indEntry d fs ino.two_indirect
            ((k - 7 - fs.blocksize / 4) / (fs.blocksize / 4)) = 0 then 0
        else indEntry d fs
          (indEntry d fs ino.two_indirect
            ((k - 7 - fs.blocksize / 4) / (fs.blocksize / 4)))
          ((k - 7 - fs.blocksize / 4) % (fs.blocksize / 4)))) ∧
    (7 + fs.blocksize / 4 + fs.blocksize / 4 * (fs.blocksize / 4) ≤ k →
      zoneAt d fs ino k = none) := by
  refine ⟨?_, ?_, ?_, ?_⟩
  · intro h
    simp only [zoneAt]
    rw [if_pos h]
  · intro h1 h2
    simp only [zoneAt]
    rw [if_neg (by omega), if_pos h2]
  · intro h1 h2
    have hE : 0 < fs.blocksize / 4 := by
      by_contra hc
      have : fs.blocksize / 4 = 0 := by omega
      rw [this] at h1 h2
      omega
    simp only [zoneAt]
    rw [if_neg (by omega), if_neg (by omega),
      if_neg (by
        rw [not_le, Nat.div_lt_iff_lt_mul hE]
        omega)]
  · intro h
    exact (zoneAt_none_iff d fs ino k).mpr h

/-- Witness for C2 at concrete block indices 0, 7, 9 and 13 on the sample
context (`E = 2`). -/
theorem zoneAt_spec_witness :
    zoneAt zeroDisk wFS wInoSmall 0 = some (wInoSmall.zone.getD 0 0) ∧
    zoneAt zeroDisk wFS wInoSmall 7 = some 0 ∧
    zoneAt zeroDisk wFS wInoSmall 9 = some 0 ∧
    zoneAt zeroDisk wFS wInoSmall 13 = none :=
  ⟨(zoneAt_spec zeroDisk wFS wInoSmall 0).1 (by decide),
   ((zoneAt_spec zeroDisk wFS wInoSmall 7).2.1 (by decide) (by decide)).trans
     (by decide),
   ((zoneAt_spec zeroDisk wFS wInoSmall 9).2.2.1 (by decide) (by decide)).trans
     (by decide),
   (zoneAt_spec zeroDisk wFS wInoSmall 13).2.2.2 (by decide)⟩

/-- C3.  When the inode's size fits in the `7 + E + E*E` addressable
logical blocks, `fs_copy_file_to_stream` writes exactly `size` bytes and
succeeds (unreachable count 0); when it does not, the walk stops at the
addressable limit and fails, reporting exactly
`size - (7 + E + E*E) * zonesize` unreachable bytes. -/
theorem fs_copy_file_spec (d : Disk) (fs : FS) (ino : Inode) :
    (ino.size ≤ copyLimit fs * fs.zonesize →
      (fs_copy_file_to_stream d fs ino).1.length = ino.size ∧
      (fs_copy_file_to_stream d fs ino).2 = 0) ∧
    (copyLimit fs * fs.zonesize < ino.size →
      (fs_copy_file_to_stream d fs ino).1.length =
        copyLimit fs * fs.zonesize ∧
      (fs_copy_file_to_stream d fs ino).2 =
        ino.size - copyLimit fs * fs.zonesize ∧
      (fs_copy_file_to_stream d fs ino).2 ≠ 0) := by
  constructor
  · intro h
    have := copyAux_complete d fs ino (copyLimit fs + 1) 0 ino.size
      (by omega) (by simpa using h)
    simpa [fs_copy_file_to_stream] using this
  · intro h
    have := copyAux_overflow d fs ino (copyLimit fs + 1) 0 ino.size
      (by omega) (by simpa using h)
    simp only [fs_copy_file_to_stream, Nat.sub_zero] at this ⊢
    exact ⟨this.1, this.2, by omega⟩

/-- Witness for C3: a 5-byte file yields 5 bytes and success; a 200-byte
file on the 104-byte-addressable sample context fails with 96 unreachable
bytes. -/
theorem fs_copy_file_spec_witness :
    ((fs_copy_file_to_stream zeroDisk wFS wInoSmall).1.length =
        wInoSmall.size ∧
      (fs_copy_file_to_stream zeroDisk wFS wInoSmall).2 = 0) ∧
    ((fs_copy_file_to_stream zeroDisk wFS wInoBig).1.length =
        copyLimit wFS * wFS.zonesize ∧
      (fs_copy_file_to_stream zeroDisk wFS wInoBig).2 =
        wInoBig.size - copyLimit wFS * wFS.zonesize ∧
      (fs_copy_file_to_stream zeroDisk wFS wInoBig).2 ≠ 0) :=
  ⟨(fs_copy_file_spec zeroDisk wFS wInoSmall).1 (by decide),
   (fs_copy_file_spec zeroDisk wFS wInoBig).2 (by decide)⟩

/-- C4.  A hole (`zone == 0`) with `remaining > 0` produces exactly
`min(remaining, zonesize)` zero bytes, and performs no positioned read of
file data (the read trace is empty). -/
theorem copy_from_zone_hole_spec (d : Disk) (fs : FS) (r : Nat)
    (h : 0 < r) :
    copy_from_zone d fs 0 r =
      ⟨List.replicate (min r fs.zonesize) 0, r - min r fs.zonesize, []⟩ := by
  unfold copy_from_zone
  rw [if_neg (by omega)]
  simp

/-- Witness for C4 with `remaining = 3` on the sample context. -/
theorem copy_from_zone_hole_spec_witness :
    copy_from_zone zeroDisk wFS 0 3 =
      ⟨List.replicate (min 3 wFS.zonesize) 0, 3 - min 3 wFS.zonesize, []⟩ :=
  copy_from_zone_hole_spec zeroDisk wFS 3 (by decide)

theorem canonAux_length (l : List Nat) :
    ∀ j lws, (canonAux l j lws).length + j ≤ 1023 ∨ canonAux l j lws = [] := by
  induction l with
  | nil => intro j lws; right; rfl
  | cons c rest ih =>
    intro j lws
    unfold canonAux
    by_cases hb : j + 1 < 1024
    · rw [if_pos hb]
      by_cases hc : c = 47
      · rw [if_pos hc]
        cases lws with
        | true =>
          rw [if_pos rfl]
          rcases ih j true with h | h
          · left; exact h
          · right; exact h
        | false =>
          rw [if_neg (by simp)]
          left
          rcases ih (j + 1) true with h | h
          · simp only [List.length_cons]
            omega
          · rw [h]
            simp only [List.length_cons, List.length_nil]
            omega
      · rw [if_neg hc]
        left
        rcases ih (j + 1) false with h | h
        · simp only [List.length_cons]
          omega
        · rw [h]
          simp only [List.length_cons, List.length_nil]
          omega
    · rw [if_neg hb]
      right
      rfl

theorem canonAux_head_true (l : List Nat) :
    ∀ j x xs, canonAux l j true = x :: xs → x ≠ 47 := by
  induction l with
  | nil => intro j x xs h; exact absurd h (by simp [canonAux])
  | cons c rest ih =>
    intro j x xs h
    unfold canonAux at h
    by_cases hb : j + 1 < 1024
    · rw [if_pos hb] at h
      by_cases hc : c = 47
      · rw [if_pos hc, if_pos rfl] at h
        exact ih j x xs h
      · rw [if_neg hc] at h
        cases h
        exact hc
    · rw [if_neg hb] at h
      exact absurd h (by simp)

theorem noAdj_tail (a : Nat) (l : List Nat) (h : noAdjSlash (a :: l) = true) :
    noAdjSlash l = true := by
  cases l with
  | nil => rfl
  | cons b rest =>
    unfold noAdjSlash at h
    exact (Bool.and_eq_true_iff.mp h).2

theorem noAdj_cons_of_head (a : Nat) (l : List Nat)
    (h1 : noAdjSlash l = true)
    (h2 : ∀ x xs, l = x :: xs → a ≠ 47 ∨ x ≠ 47) :
    noAdjSlash (a :: l) = true := by
  cases l with
  | nil => rfl
  | cons b rest =>
    unfold noAdjSlash
    rw [Bool.and_eq_true_iff]
    refine ⟨?_, h1⟩
    rcases h2 b rest rfl with hx | hx <;> simp [hx]

theorem canonAux_noAdj (l : List Nat) :
    ∀ j lws, noAdjSlash (canonAux l j lws) = true := by
  induction l with
  | nil => intro j lws; rfl
  | cons c rest ih =>
    intro j lws
    unfold canonAux
    by_cases hb : j + 1 < 1024
    · rw [if_pos hb]
      by_cases hc : c = 47
      · rw [if_pos hc]
        cases lws with
        | true =>
          rw [if_pos rfl]
          exact ih j true
        | false =>
          rw [if_neg (by simp)]
          refine noAdj_cons_of_head 47 _ (ih (j + 1) true) ?_
          intro x xs hx
          exact Or.inr (canonAux_head_true rest (j + 1) x xs hx)
      · rw [if_neg hc]
        refine noAdj_cons_of_head c _ (ih (j + 1) false) ?_
        intro x xs _
        exact Or.inl hc
    · rw [if_neg hb]
      rfl

theorem canonAux_id (l : List Nat) :
    ∀ j lws, noAdjSlash l = true → l.length + j ≤ 1023 →
      (lws = true → ∀ x xs, l = x :: xs → x ≠ 47) →
      canonAux l j lws = l := by
  induction l with
  | nil => intro j lws _ _ _; rfl
  | cons c rest ih =>
    intro j lws hadj hlen hlws
    have hb : j + 1 < 1024 := by
      simp only [List.length_cons] at hlen
      omega
    unfold canonAux
    rw [if_pos hb]
    by_cases hc : c = 47
    · cases lws with
      | true => exact absurd hc (hlws rfl c rest rfl)
      | false =>
        rw [if_pos hc, if_neg (by simp), hc]
        congr 1
        refine ih (j + 1) true (noAdj_tail c rest hadj)
          (by simp only [List.length_cons] at hlen; omega) ?_
        intro _ x xs hx
        subst hx
        unfold noAdjSlash at hadj
        rw [Bool.and_eq_true_iff] at hadj
        have := hadj.1
        rw [hc] at this
        simpa using this
    · rw [if_neg hc]
      congr 1
      exact ih (j + 1) false (noAdj_tail c rest hadj)
        (by simp only [List.length_cons] at hlen; omega) (by simp)

theorem noAdj_dropLast : ∀ l : List Nat, noAdjSlash l = true →
    noAdjSlash l.dropLast = true
  | [] => fun _ => rfl
  | [_] => fun _ => rfl
  | a :: b :: rest => fun h => by
    have htail := noAdj_dropLast (b :: rest) (noAdj_tail a _ h)
    rw [List.dropLast_cons₂]
    cases hr : rest with
    | nil => rfl
    | cons r rs =>
      subst hr
      rw [List.dropLast_cons₂] at htail ⊢
      refine noAdj_cons_of_head a _ htail ?_
      intro x xs hx
      have hxb : x = b := by
        cases hx
        rfl
      subst hxb
      unfold noAdjSlash at h
      rw [Bool.and_eq_true_iff] at h
      rcases Bool.or_eq_true_iff.mp h.1 with hh | hh
      · exact Or.inl (by simpa using hh)
      · exact Or.inr (by simpa using hh)

theorem noAdj_strip_last : ∀ l : List Nat, noAdjSlash l = true →
    l.getLast? = some 47 → 1 < l.length →
    l.dropLast.getLast? ≠ some 47
  | [] => by simp
  | [a] => by simp
  | [a, b] => fun h hlast _ => by
    have hb : b = 47 := by simpa using hlast
    subst hb
    unfold noAdjSlash at h
    rw [Bool.and_eq_true_iff] at h
    have ha : a ≠ 47 := by simpa using h.1
    simpa using ha
  | a :: b :: c :: rest => fun h hlast _ => by
    have hrec := noAdj_strip_last (b :: c :: rest) (noAdj_tail a _ h)
      (by rwa [List.getLast?_cons_cons] at hlast) (by simp)
    rw [List.dropLast_cons₂, List.dropLast_cons₂]
    rw [List.dropLast_cons₂] at hrec
    intro hcon
    rw [show ((a :: b :: (c :: rest).dropLast).getLast? =
        (b :: (c :: rest).dropLast).getLast?) from
      List.getLast?_cons_cons ..] at hcon
    exact hrec hcon

theorem canonicalize_path_cons (p : List Nat) (hp : p ≠ []) (outsz : Nat) :
    canonicalize_path p outsz =
      (if 1 < (if p.headD 0 = 47 then canonAux p 0 false
               else 47 :: canonAux p 1 true).length ∧
          (if p.headD 0 = 47 then canonAux p 0 false
           else 47 :: canonAux p 1 true).getLast? = some 47
       then (if p.headD 0 = 47 then canonAux p 0 false
             else 47 :: canonAux p 1 true).dropLast
       else (if p.headD 0 = 47 then canonAux p 0 false
             else 47 :: canonAux p 1 true)).take (outsz - 1) := by
  unfold canonicalize_path
  rw [if_neg hp]

theorem canonAux_slash_head (rest : List Nat) :
    canonAux (47 :: rest) 0 false = 47 :: canonAux rest 1 true := by
  conv_lhs => unfold canonAux
  rw [if_pos (by omega), if_pos rfl, if_neg (by simp)]

theorem strip_take_props (t0 out : List Nat)
    (hout : out = (if 1 < t0.length ∧ t0.getLast? = some 47
        then t0.dropLast else t0).take 1023)
    (t : List Nat) (ht : t0 = 47 :: t)
    (hadj : noAdjSlash t0 = true)
    (hlen : t0.length ≤ 1023) :
    out ≠ [] ∧ out.headD 0 = 47 ∧ noAdjSlash out = true ∧
    out.length ≤ 1023 ∧
    (1 < out.length → out.getLast? ≠ some 47) := by
  subst hout
  subst ht
  by_cases hst : 1 < (47 :: t).length ∧ (47 :: t).getLast? = some 47
  · rw [if_pos hst]
    obtain ⟨x, xs, rfl⟩ : ∃ x xs, t = x :: xs := by
      cases t with
      | nil => exact absurd hst.1 (by simp)
      | cons x xs => exact ⟨x, xs, rfl⟩
    rw [List.dropLast_cons₂]
    have hlen2 : (47 :: (x :: xs).dropLast).length ≤ 1023 := by
      simp only [List.length_cons, List.length_dropLast] at hlen ⊢
      omega
    rw [List.take_of_length_le hlen2]
    refine ⟨by simp, by simp, ?_, hlen2, ?_⟩
    · have := noAdj_dropLast (47 :: x :: xs) hadj
      rwa [List.dropLast_cons₂] at this
    · intro _
      have := noAdj_strip_last (47 :: x :: xs) hadj hst.2 hst.1
      rwa [List.dropLast_cons₂] at this
  · rw [if_neg hst]
    rw [List.take_of_length_le hlen]
    refine ⟨by simp, by simp, hadj, hlen, ?_⟩
    intro hl hcon
    exact hst ⟨hl, hcon⟩

theorem canon_props (p : List Nat) :
    canonicalize_path p 1024 ≠ [] ∧
    (canonicalize_path p 1024).headD 0 = 47 ∧
    noAdjSlash (canonicalize_path p 1024) = true ∧
    (canonicalize_path p 1024).length ≤ 1023 ∧
    (1 < (canonicalize_path p 1024).length →
      (canonicalize_path p 1024).getLast? ≠ some 47) := by
  by_cases hp : p = []
  · subst hp
    refine ⟨by decide, by decide, by decide, by decide, by decide⟩
  · rw [canonicalize_path_cons p hp 1024]
    by_cases hh : p.headD 0 = 47
    · obtain ⟨c, rest, rfl⟩ := List.exists_cons_of_ne_nil hp
      have hc : c = 47 := by simpa using hh
      subst hc
      rw [if_pos hh, canonAux_slash_head]
      refine strip_take_props _ _ rfl (canonAux rest 1 true) rfl ?_ ?_
      · have := canonAux_noAdj (47 :: rest) 0 false
        rwa [canonAux_slash_head] at this
      · have := canonAux_length (47 :: rest) 0 false
        rw [canonAux_slash_head] at this
        rcases this with h | h
        · omega
        · exact absurd h (by simp)
    · rw [if_neg hh]
      refine strip_take_props _ _ rfl (canonAux p 1 true) rfl ?_ ?_
      · refine noAdj_cons_of_head 47 _ (canonAux_noAdj p 1 true) ?_
        intro x xs hx
        exact Or.inr (canonAux_head_true p 1 x xs hx)
      · rcases canonAux_length p 1 true with h | h
        · simp only [List.length_cons]
          omega
        · rw [h]
          simp

/-- C7.  Path canonicalization (buffers of 1024 bytes as at both call
sites): it is idempotent; `NULL`/empty input (the empty byte list) yields
"/"; the output starts with `/`; runs of consecutive `/` are collapsed
(no two adjacent slashes remain); and a trailing `/` is present only for
the root result "/" itself. -/
theorem canonicalize_path_spec (p : List Nat) :
    canonicalize_path (canonicalize_path p 1024) 1024 =
      canonicalize_path p 1024 ∧
    canonicalize_path [] 1024 = [47] ∧
    (canonicalize_path p 1024).headD 0 = 47 ∧
    noAdjSlash (canonicalize_path p 1024) = true ∧
    (1 < (canonicalize_path p 1024).length →
      (canonicalize_path p 1024).getLast? ≠ some 47) := by
  obtain ⟨hne, hhd, hadj, hlen, hlast⟩ := canon_props p
  refine ⟨?_, by decide, hhd, hadj, hlast⟩
  rw [canonicalize_path_cons (canonicalize_path p 1024) hne 1024]
  rw [if_pos hhd]
  have hid : canonAux (canonicalize_path p 1024) 0 false =
      canonicalize_path p 1024 :=
    canonAux_id (canonicalize_path p 1024) 0 false hadj (by omega) (by simp)
  rw [hid]
  have hcond : ¬(1 < (canonicalize_path p 1024).length ∧
      (canonicalize_path p 1024).getLast? = some 47) :=
    fun hcon => hlast hcon.1 hcon.2
  rw [if_neg hcond]
  exact List.take_of_length_le hlen

/-- Witness for C7 on the path "a//b/", whose canonical form "/a/b" has
length 4. -/
theorem canonicalize_path_spec_witness :
    canonicalize_path (canonicalize_path exPath 1024) 1024 =
      canonicalize_path exPath 1024 ∧
    (canonicalize_path exPath 1024).getLast? ≠ some 47 :=
  ⟨(canonicalize_path_spec exPath).1,
   (canonicalize_path_spec exPath).2.2.2.2 (by decide)⟩

theorem scan_agree (d : Disk) (fs : FS) (base : Nat) (target : List Nat)
    (n : Nat) :
    ∀ t r,
      ((∀ e ∈ (scanList d fs base n t r).1, e.2 ≠ target) →
        (scanList d fs base n t r).2.1 = false →
        scanLookup d base target n t r =
          (none, (scanList d fs base n t r).2.2)) ∧
      (∀ (p i : Nat), (scanList d fs base n t r).1[p]? = some (i, target) →
        (∀ (q : Nat), q < p → ∀ e : Nat × List Nat,
          (scanList d fs base n t r).1[q]? = some e → e.2 ≠ target) →
        (scanLookup d base target n t r).1 = some i) := by
  induction n with
  | zero =>
    intro t r
    refine ⟨fun _ _ => rfl, fun p i hp _ => ?_⟩
    simp [scanList] at hp
  | succ n ih =>
    intro t r
    by_cases he : (readDirent d (base + 64 * t)).inode = 0
    · have hcond : ¬((readDirent d (base + 64 * t)).inode ≠ 0 ∧
          nameMatches (readDirent d (base + 64 * t)).name target = true) :=
        fun hc => hc.1 he
      by_cases hr : r ≤ 64
      · have hL : scanList d fs base (n + 1) t r = ([], false, 0) := by
          simp only [scanList]
          rw [if_neg (by simpa using he), if_pos hr]
        have hK : scanLookup d base target (n + 1) t r = (none, 0) := by
          simp only [scanLookup]
          rw [if_neg hcond, if_pos hr]
        rw [hL, hK]
        refine ⟨fun _ _ => rfl, fun p i hp _ => ?_⟩
        simp at hp
      · have hL : scanList d fs base (n + 1) t r =
            scanList d fs base n (t + 1) (r - 64) := by
          simp only [scanList]
          rw [if_neg (by simpa using he), if_neg hr]
        have hK : scanLookup d base target (n + 1) t r =
            scanLookup d base target n (t + 1) (r - 64) := by
          simp only [scanLookup]
          rw [if_neg hcond, if_neg hr]
        rw [hL, hK]
        exact ih (t + 1) (r - 64)
    · by_cases hm : nameMatches (readDirent d (base + 64 * t)).name target
          = true
      · have heq : cname (readDirent d (base + 64 * t)).name = target := by
          simp only [nameMatches] at hm
          exact eq_of_beq hm
        have hK : scanLookup d base target (n + 1) t r =
            (some (readDirent d (base + 64 * t)).inode, r) := by
          simp only [scanLookup]
          rw [if_pos ⟨he, hm⟩]
        cases hg : fs_get_inode d fs (readDirent d (base + 64 * t)).inode with
        | error err =>
          have hL : scanList d fs base (n + 1) t r = ([], true, r) := by
            simp only [scanList]
            rw [if_pos he, hg]
          rw [hL]
          refine ⟨fun _ h2 => absurd h2 (by simp), fun p i hp _ => ?_⟩
          simp at hp
        | ok child =>
          by_cases hr : r ≤ 64
          · have hL : scanList d fs base (n + 1) t r =
                ([((readDirent d (base + 64 * t)).inode,
                   cname (readDirent d (base + 64 * t)).name)], false, 0) := by
              simp only [scanList]
              rw [if_pos he, hg, if_pos hr]
            rw [hL, hK]
            constructor
            · intro h1 _
              exact absurd heq (h1 _ (List.mem_singleton_self _))
            · intro p i hp _
              cases p with
              | zero =>
                rw [List.getElem?_cons_zero, Option.some_inj] at hp
                exact congrArg some (congrArg Prod.fst hp)
              | succ q => simp at hp
          · have hL : scanList d fs base (n + 1) t r =
                (((readDirent d (base + 64 * t)).inode,
                   cname (readDirent d (base + 64 * t)).name) ::
                    (scanList d fs base n (t + 1) (r - 64)).1,
                 (scanList d fs base n (t + 1) (r - 64)).2.1,
                 (scanList d fs base n (t + 1) (r - 64)).2.2) := by
              simp only [scanList]
              rw [if_pos he, hg, if_neg hr]
            rw [hL, hK]
            constructor
            · intro h1 _
              exact absurd heq (h1 _ (List.mem_cons_self _ _))
            · intro p i hp hfirst
              cases p with
              | zero =>
                rw [List.getElem?_cons_zero, Option.some_inj] at hp
                exact congrArg some (congrArg Prod.fst hp)
              | succ q =>
                have hhead := hfirst 0 (Nat.succ_pos q) _
                  (List.getElem?_cons_zero ..)
                exact absurd heq hhead
      · have hKcond : ¬((readDirent d (base + 64 * t)).inode ≠ 0 ∧
            nameMatches (readDirent d (base + 64 * t)).name target = true) :=
          fun hc => hm hc.2
        have hne : cname (readDirent d (base + 64 * t)).name ≠ target := by
          intro hcon
          exact hm (by simp [nameMatches, hcon])
        cases hg : fs_get_inode d fs (readDirent d (base + 64 * t)).inode with
        | error err =>
          have hL : scanList d fs base (n + 1) t r = ([], true, r) := by
            simp only [scanList]
            rw [if_pos he, hg]
          rw [hL]
          refine ⟨fun _ h2 => absurd h2 (by simp), fun p i hp _ => ?_⟩
          simp at hp
        | ok child =>
          by_cases hr : r ≤ 64
          · have hL : scanList d fs base (n + 1) t r =
                ([((readDirent d (base + 64 * t)).inode,
                   cname (readDirent d (base + 64 * t)).name)], false, 0) := by
              simp only [scanList]
              rw [if_pos he, hg, if_pos hr]
            have hK : scanLookup d base target (n + 1) t r = (none, 0) := by
              simp only [scanLookup]
              rw [if_neg hKcond, if_pos hr]
            rw [hL, hK]
            constructor
            · intro _ _
              rfl
            · intro p i hp _
              cases p with
              | zero =>
                rw [List.getElem?_cons_zero, Option.some_inj] at hp
                exact absurd (congrArg Prod.snd hp) hne
              | succ q => simp at hp
          · have hL : scanList d fs base (n + 1) t r =
                (((readDirent d (base + 64 * t)).inode,
                   cname (readDirent d (base + 64 * t)).name) ::
                    (scanList d fs base n (t + 1) (r - 64)).1,
                 (scanList d fs base n (t + 1) (r - 64)).2.1,
                 (scanList d fs base n (t + 1) (r - 64)).2.2) := by
              simp only [scanList]
              rw [if_pos he, hg, if_neg hr]
            have hK : scanLookup d base target (n + 1) t r =
                scanLookup d base target n (t + 1) (r - 64) := by
              simp only [scanLookup]
              rw [if_neg hKcond, if_neg hr]
            rw [hL, hK]
            constructor
            · intro h1 h2
              exact (ih (t + 1) (r - 64)).1
                (fun e hemem => h1 e (List.mem_cons_of_mem _ hemem)) h2
            · intro p i hp hfirst
              cases p with
              | zero =>
                rw [List.getElem?_cons_zero, Option.some_inj] at hp
                exact absurd (congrArg Prod.snd hp) hne
              | succ q =>
                rw [List.getElem?_cons_succ] at hp
                refine (ih (t + 1) (r - 64)).2 q i hp ?_
                intro q' hq' e' hq'e
                refine hfirst (q' + 1) (by omega) e' ?_
                rw [List.getElem?_cons_succ]
                exact hq'e

theorem getElem?_append_lt {α : Type} (l1 l2 : List α) (n : Nat)
    (h : n < l1.length) : (l1 ++ l2)[n]? = l1[n]? := by
  rw [List.getElem?_append, if_pos h]

theorem getElem?_append_ge {α : Type} (l1 l2 : List α) (n : Nat)
    (h : l1.length ≤ n) : (l1 ++ l2)[n]? = l2[n - l1.length]? := by
  rw [List.getElem?_append, if_neg (by omega)]

theorem mem_getElem? {α : Type} (a : α) (l : List α) (h : a ∈ l) :
    ∃ n : Nat, l[n]? = some a ∧ n < l.length := by
  obtain ⟨n, hn, he⟩ := List.getElem_of_mem h
  exact ⟨n, by rw [List.getElem?_eq_getElem hn, he], hn⟩

theorem zones_agree (d : Disk) (fs : FS) (target : List Nat) (zs : List Nat) :
    ∀ r : Nat,
      ((∀ e ∈ (listZones d fs zs r).1, e.2 ≠ target) →
        (listZones d fs zs r).2.1 = false →
        lookupZones d fs target zs r = (none, (listZones d fs zs r).2.2)) ∧
      (∀ (p i : Nat), (listZones d fs zs r).1[p]? = some (i, target) →
        (∀ (q : Nat), q < p → ∀ e : Nat × List Nat,
          (listZones d fs zs r).1[q]? = some e → e.2 ≠ target) →
        (lookupZones d fs target zs r).1 = some i) := by
  induction zs with
  | nil =>
    intro r
    refine ⟨fun _ _ => rfl, fun p i hp _ => by simp [listZones] at hp⟩
  | cons z zs ih =>
    intro r
    by_cases hr0 : r = 0
    · have hL : listZones d fs (z :: zs) r = ([], false, r) := by
        simp only [listZones]
        rw [if_pos hr0]
      have hK : lookupZones d fs target (z :: zs) r = (none, r) := by
        simp only [lookupZones]
        rw [if_pos hr0]
      rw [hL, hK]
      refine ⟨fun _ _ => rfl, fun p i hp _ => by simp at hp⟩
    · by_cases hz : z = 0
      · by_cases hrz : r ≤ fs.zonesize
        · have hL : listZones d fs (z :: zs) r = ([], false, r) := by
            simp only [listZones]
            rw [if_neg hr0, if_pos hz, if_pos hrz]
          have hK : lookupZones d fs target (z :: zs) r = (none, r) := by
            simp only [lookupZones]
            rw [if_neg hr0, if_pos hz, if_pos hrz]
          rw [hL, hK]
          refine ⟨fun _ _ => rfl, fun p i hp _ => by simp at hp⟩
        · have hL : listZones d fs (z :: zs) r =
              listZones d fs zs (r - fs.zonesize) := by
            simp only [listZones]
            rw [if_neg hr0, if_pos hz, if_neg hrz]
          have hK : lookupZones d fs target (z :: zs) r =
              lookupZones d fs target zs (r - fs.zonesize) := by
            simp only [lookupZones]
            rw [if_neg hr0, if_pos hz, if_neg hrz]
          rw [hL, hK]
          exact ih (r - fs.zonesize)
      · by_cases herr : (scanList d fs (fs.fs_offset + z * fs.zonesize)
            (min r fs.zonesize / 64) 0 r).2.1 = true
        · have hL : listZones d fs (z :: zs) r =
              ((scanList d fs (fs.fs_offset + z * fs.zonesize)
                  (min r fs.zonesize / 64) 0 r).1, true,
               (scanList d fs (fs.fs_offset + z * fs.zonesize)
                  (min r fs.zonesize / 64) 0 r).2.2) := by
            simp only [listZones]
            rw [if_neg hr0, if_neg hz, if_pos herr]
          rw [hL]
          constructor
          · intro _ h2
            exact absurd h2 (by simp)
          · intro p i hp hfirst
            have hfound := (scan_agree d fs (fs.fs_offset + z * fs.zonesize)
              target (min r fs.zonesize / 64) 0 r).2 p i hp hfirst
            simp only [lookupZones]
            rw [if_neg hr0, if_neg hz, hfound]
        · have herr2 : (scanList d fs (fs.fs_offset + z * fs.zonesize)
              (min r fs.zonesize / 64) 0 r).2.1 = false := by
            revert herr
            cases (scanList d fs (fs.fs_offset + z * fs.zonesize)
              (min r fs.zonesize / 64) 0 r).2.1 <;> simp
          have hL : listZones d fs (z :: zs) r =
              ((scanList d fs (fs.fs_offset + z * fs.zonesize)
                  (min r fs.zonesize / 64) 0 r).1 ++
                (listZones d fs zs (scanList d fs
                  (fs.fs_offset + z * fs.zonesize)
                  (min r fs.zonesize / 64) 0 r).2.2).1,
               (listZones d fs zs (scanList d fs
                  (fs.fs_offset + z * fs.zonesize)
                  (min r fs.zonesize / 64) 0 r).2.2).2.1,
               (listZones d fs zs (scanList d fs
                  (fs.fs_offset + z * fs.zonesize)
                  (min r fs.zonesize / 64) 0 r).2.2).2.2) := by
            simp only [listZones]
            rw [if_neg hr0, if_neg hz, if_neg herr]
          rw [hL]
          constructor
          · intro h1 h2
            have hK1 := (scan_agree d fs (fs.fs_offset + z * fs.zonesize)
              target (min r fs.zonesize / 64) 0 r).1
              (fun e hemem => h1 e (List.mem_append_left _ hemem)) herr2
            have hK2 := (ih ((scanList d fs (fs.fs_offset + z * fs.zonesize)
              (min r fs.zonesize / 64) 0 r).2.2)).1
              (fun e hemem => h1 e (List.mem_append_right _ hemem)) h2
            simp only [lookupZones]
            rw [if_neg hr0, if_neg hz, hK1]
            exact hK2
          · intro p i hp hfirst
            by_cases hplen : p < (scanList d fs
                (fs.fs_offset + z * fs.zonesize)
                (min r fs.zonesize / 64) 0 r).1.length
            · rw [getElem?_append_lt _ _ _ hplen] at hp
              have hfirst1 : ∀ (q : Nat), q < p → ∀ e : Nat × List Nat,
                  (scanList d fs (fs.fs_offset + z * fs.zonesize)
                    (min r fs.zonesize / 64) 0 r).1[q]? = some e →
                  e.2 ≠ target := by
                intro q hq e hqe
                refine hfirst q hq e ?_
                rw [getElem?_append_lt _ _ _ (by omega)]
                exact hqe
              have hfound := (scan_agree d fs (fs.fs_offset + z * fs.zonesize)
                target (min r fs.zonesize / 64) 0 r).2 p i hp hfirst1
              simp only [lookupZones]
              rw [if_neg hr0, if_neg hz, hfound]
            · have hple : (scanList d fs (fs.fs_offset + z * fs.zonesize)
                  (min r fs.zonesize / 64) 0 r).1.length ≤ p := by omega
              rw [getElem?_append_ge _ _ _ hple] at hp
              have hall : ∀ e ∈ (scanList d fs
                  (fs.fs_offset + z * fs.zonesize)
                  (min r fs.zonesize / 64) 0 r).1, e.2 ≠ target := by
                intro e hemem
                obtain ⟨q, hq, hqlt⟩ := mem_getElem? e _ hemem
                refine hfirst q (by omega) e ?_
                rw [getElem?_append_lt _ _ _ hqlt]
                exact hq
              have hK1 := (scan_agree d fs (fs.fs_offset + z * fs.zonesize)
                target (min r fs.zonesize / 64) 0 r).1 hall herr2
              have hfirst2 : ∀ (q : Nat),
                  q < p - (scanList d fs (fs.fs_offset + z * fs.zonesize)
                    (min r fs.zonesize / 64) 0 r).1.length →
                  ∀ e : Nat × List Nat,
                  (listZones d fs zs ((scanList d fs
                    (fs.fs_offset + z * fs.zonesize)
                    (min r fs.zonesize / 64) 0 r).2.2)).1[q]? = some e →
                  e.2 ≠ target := by
                intro q hq e hqe
                refine hfirst (q + (scanList d fs
                  (fs.fs_offset + z * fs.zonesize)
                  (min r fs.zonesize / 64) 0 r).1.length) (by omega) e ?_
                rw [getElem?_append_ge _ _ _ (by omega)]
                simpa using hqe
              have hfound2 := (ih ((scanList d fs
                (fs.fs_offset + z * fs.zonesize)
                (min r fs.zonesize / 64) 0 r).2.2)).2
                (p - (scanList d fs (fs.fs_offset + z * fs.zonesize)
                  (min r fs.zonesize / 64) 0 r).1.length) i hp hfirst2
              simp only [lookupZones]
              rw [if_neg hr0, if_neg hz, hK1]
              exact hfound2

/-- C8 (amended).  Looking up the name of an entry emitted by directory
enumeration returns the inode number of the *first* enumerated entry
bearing that name; in particular, when no earlier enumerated entry has
the same name, it returns the enumerated entry's own inode number. -/
theorem dir_lookup_first_match (d : Disk) (fs : FS) (ino : Inode)
    (target : List Nat) (p i : Nat)
    (hp : (fs_list_dir d fs ino).1[p]? = some (i, target))
    (hfirst : ∀ (q : Nat), q < p → ∀ e : Nat × List Nat,
      (fs_list_dir d fs ino).1[q]? = some e → e.2 ≠ target) :
    dir_lookup d fs ino target = .ok (some i) := by
  by_cases hdir : fs_is_dir ino = false
  · have hnil : (fs_list_dir d fs ino).1 = [] := by
      simp [fs_list_dir, hdir]
    rw [hnil] at hp
    simp at hp
  · by_cases herr : (listZones d fs ino.zone ino.size).2.1 = true
    · have hL : fs_list_dir d fs ino =
          ((listZones d fs ino.zone ino.size).1, true) := by
        simp only [fs_list_dir]
        rw [if_neg hdir, if_pos herr]
      rw [hL] at hp hfirst
      have hfound := (zones_agree d fs target ino.zone ino.size).2 p i hp hfirst
      simp only [dir_lookup]
      rw [if_neg hdir, hfound]
    · have herr2 : (listZones d fs ino.zone ino.size).2.1 = false := by
        revert herr
        cases (listZones d fs ino.zone ino.size).2.1 <;> simp
      by_cases hind : 0 < (listZones d fs ino.zone ino.size).2.2 ∧
          ino.indirect ≠ 0
      · have hL : fs_list_dir d fs ino =
            ((listZones d fs ino.zone ino.size).1 ++
              (listZones d fs (indTableDir d fs ino.indirect)
                (listZones d fs ino.zone ino.size).2.2).1,
             (listZones d fs (indTableDir d fs ino.indirect)
                (listZones d fs ino.zone ino.size).2.2).2.1) := by
          simp only [fs_list_dir]
          rw [if_neg hdir, if_neg herr, if_pos hind]
        rw [hL] at hp hfirst
        by_cases hplen : p < (listZones d fs ino.zone ino.size).1.length
        · rw [getElem?_append_lt _ _ _ hplen] at hp
          have hfirst1 : ∀ (q : Nat), q < p → ∀ e : Nat × List Nat,
              (listZones d fs ino.zone ino.size).1[q]? = some e →
              e.2 ≠ target := by
            intro q hq e hqe
            refine hfirst q hq e ?_
            rw [getElem?_append_lt _ _ _ (by omega)]
            exact hqe
          have hfound := (zones_agree d fs target ino.zone ino.size).2
            p i hp hfirst1
          simp only [dir_lookup]
          rw [if_neg hdir, hfound]
        · have hple : (listZones d fs ino.zone ino.size).1.length ≤ p := by
            omega
          rw [getElem?_append_ge _ _ _ hple] at hp
          have hall : ∀ e ∈ (listZones d fs ino.zone ino.size).1,
              e.2 ≠ target := by
            intro e hemem
            obtain ⟨q, hq, hqlt⟩ := mem_getElem? e _ hemem
            refine hfirst q (by omega) e ?_
            rw [getElem?_append_lt _ _ _ hqlt]
            exact hq
          have hK1 := (zones_agree d fs target ino.zone ino.size).1 hall herr2
          have hfirst2 : ∀ (q : Nat),
              q < p - (listZones d fs ino.zone ino.size).1.length →
              ∀ e : Nat × List Nat,
              (listZones d fs (indTableDir d fs ino.indirect)
                (listZones d fs ino.zone ino.size).2.2).1[q]? = some e →
              e.2 ≠ target := by
            intro q hq e hqe
            refine hfirst (q + (listZones d fs ino.zone ino.size).1.length)
              (by omega) e ?_
            rw [getElem?_append_ge _ _ _ (by omega)]
            simpa using hqe
          have hfound2 := (zones_agree d fs target
            (indTableDir d fs ino.indirect)
            (listZones d fs ino.zone ino.size).2.2).2
            (p - (listZones d fs ino.zone ino.size).1.length) i hp hfirst2
          simp only [dir_lookup]
          rw [if_neg hdir]
          rw [hK1]
          simp only []
          rw [if_pos hind, hfound2]
      · have hL : fs_list_dir d fs ino =
            ((listZones d fs ino.zone ino.size).1, false) := by
          simp only [fs_list_dir]
          rw [if_neg hdir, if_neg herr, if_neg hind]
        rw [hL] at hp hfirst
        have hfound := (zones_agree d fs target ino.zone ino.size).2
          p i hp hfirst
        simp only [dir_lookup]
        rw [if_neg hdir, hfound]

/-- C8 (counterexample).  In a directory holding two entries both named
"a" (inode 2 then inode 3), enumeration emits the entry `(3, "a")`, but
looking up "a" returns inode 2, not 3: lookup returns the first match,
so the claim fails when names repeat. -/
theorem dir_enum_lookup_counterexample :
    (fs_list_dir dDup dupFS dupIno).1[1]? = some (3, [97]) ∧
    dir_lookup dDup dupFS dupIno [97] = .ok (some 2) ∧
    (3 : Nat) ≠ 2 :=
  ⟨by rfl, by rfl, by decide⟩

/-- Witness for C8's amended theorem: the first entry named "a" is
`(2, "a")` at index 0, and lookup indeed returns inode 2. -/
theorem dir_lookup_first_match_witness :
    dir_lookup dDup dupFS dupIno [97] = .ok (some 2) :=
  dir_lookup_first_match dDup dupFS dupIno [97] 0 2 (by rfl)
    (fun q hq _ _ => absurd hq (Nat.not_lt_zero q))

/-- C10.  Directory-name comparison is bounded by the 60-byte field: a
name filling all 60 bytes with no NUL matches exactly the 60-character
target (the comparison string is cut at the field edge, never past it),
and a target longer than 60 characters can never match any entry. -/
theorem nameMatches_bounded_spec (nb target : List Nat) :
    (nb.length = 60 → (∀ b ∈ nb, b ≠ 0) →
      (nameMatches nb target = true ↔ target = nb)) ∧
    (60 < target.length → nameMatches nb target = false) := by
  constructor
  · intro h60 hnz
    have ht : nb.take 60 = nb := List.take_of_length_le (by omega)
    have htw : nb.takeWhile (fun b => b != 0) = nb := by
      rw [List.takeWhile_eq_self_iff]
      intro a ha
      simpa using hnz a ha
    simp only [nameMatches, cname, ht, htw]
    constructor
    · intro h
      exact (eq_of_beq h).symm
    · intro h
      simp [h]
  · intro hlen
    by_contra hc
    have hm : nameMatches nb target = true := by
      revert hc
      cases nameMatches nb target <;> simp
    have heq : cname nb = target := by
      simp only [nameMatches] at hm
      exact eq_of_beq hm
    have h1 : (cname nb).length ≤ 60 := by
      have hsub := (List.takeWhile_sublist
        (l := nb.take 60) (fun b => b != 0)).length_le
      have h2 : (nb.take 60).length ≤ 60 := by simp
      simp only [cname]
      omega
    rw [heq] at h1
    omega

/-- Witness for C10: a full 60-byte name of `1`s matches exactly the
60-long target, and a 61-byte target never matches. -/
theorem nameMatches_bounded_spec_witness :
    (nameMatches (List.replicate 60 1) (List.replicate 60 1) = true ↔
      List.replicate 60 1 = List.replicate 60 1) ∧
    nameMatches (List.replicate 60 1) (List.replicate 61 1) = false :=
  ⟨(nameMatches_bounded_spec (List.replicate 60 1)
      (List.replicate 60 1)).1 (by decide) (by decide),
   (nameMatches_bounded_spec (List.replicate 60 1)
      (List.replicate 61 1)).2 (by decide)⟩

/-- C9.  Path resolution starts at inode 1 (the root): a canonical "/"
returns the root record, and otherwise the `strtok` components of the
canonical path are walked from the root.  Each step requires the current
inode to be a directory ("Not a directory while traversing path."
otherwise, a non-zero result), a missing component fails with "File not
found." and a non-zero result, and a found component replaces the current
inode with the looked-up child. -/
theorem fs_find_path_spec (d : Disk) (fs : FS) (path : List Nat) :
    (1 ≤ fs.sb.ninodes → canonicalize_path path 1024 = [47] →
      fs_find_path d fs path = .ok (decodeInode d (inodeOffset fs 1), 1)) ∧
    (1 ≤ fs.sb.ninodes → canonicalize_path path 1024 ≠ [47] →
      fs_find_path d fs path =
        fs_find_walk d fs (tokenize ((canonicalize_path path 1024).drop 1))
          (decodeInode d (inodeOffset fs 1)) 1) ∧
    (∀ (tok : List Nat) (toks : List (List Nat)) (cur : Inode) (n : Nat),
      fs_is_dir cur = false →
      fs_find_walk d fs (tok :: toks) cur n = .error .notDir ∧
      FindErr.message .notDir = "Not a directory while traversing path.") ∧
    (∀ (tok : List Nat) (toks : List (List Nat)) (cur : Inode) (n : Nat),
      fs_is_dir cur = true →
      dir_lookup d fs cur tok = .ok none →
      fs_find_walk d fs (tok :: toks) cur n = .error .notFound ∧
      FindErr.message .notFound = "File not found.") ∧
    (∀ (tok : List Nat) (toks : List (List Nat)) (cur cino : Inode)
        (n child : Nat),
      fs_is_dir cur = true →
      dir_lookup d fs cur tok = .ok (some child) → child ≠ 0 →
      fs_get_inode d fs child = .ok cino →
      fs_find_walk d fs (tok :: toks) cur n =
        fs_find_walk d fs toks cino child) := by
  have hroot : 1 ≤ fs.sb.ninodes →
      fs_get_inode d fs 1 = .ok (decodeInode d (inodeOffset fs 1)) := by
    intro h
    unfold fs_get_inode
    rw [if_neg (by omega)]
  refine ⟨?_, ?_, ?_, ?_, ?_⟩
  · intro hn hc
    simp only [fs_find_path, hroot hn]
    rw [if_pos hc]
  · intro hn hc
    simp only [fs_find_path, hroot hn]
    rw [if_neg hc]
  · intro tok toks cur n hdir
    refine ⟨?_, rfl⟩
    simp only [fs_find_walk]
    rw [if_pos hdir]
  · intro tok toks cur n hdir hlook
    refine ⟨?_, rfl⟩
    simp only [fs_find_walk]
    rw [if_neg (by simp [hdir]), hlook]
  · intro tok toks cur cino n child hdir hlook hchild hget
    simp only [fs_find_walk]
    rw [if_neg (by simp [hdir]), hlook]
    simp only []
    rw [if_neg hchild, hget]

/-- Witness for C9: on the two-entry directory image, resolving "/" gives
the root; walking a missing name "b" fails with "File not found."; and
walking from a regular file fails with the non-directory diagnostic. -/
theorem fs_find_path_spec_witness :
    fs_find_path dDup dupFS [] =
      .ok (decodeInode dDup (inodeOffset dupFS 1), 1) ∧
    (fs_find_walk dDup dupFS [[98]] dupIno 1 = .error .notFound ∧
      FindErr.message .notFound = "File not found.") ∧
    (fs_find_walk dDup dupFS [[97]] wInoSmall 1 = .error .notDir ∧
      FindErr.message .notDir = "Not a directory while traversing path.") :=
  ⟨(fs_find_path_spec dDup dupFS []).1 (by decide) (by decide),
   (fs_find_path_spec dDup dupFS []).2.2.2.1 [98] [] dupIno 1
     (by decide) (by rfl),
   (fs_find_path_spec dDup dupFS []).2.2.1 [97] [] wInoSmall 1 (by decide)⟩
